import Mathlib

/-!
Shallow embedding of the log-streaming receiver of pg_streamrecv
(src/pg_streamrecv.c): segment naming and position arithmetic, the
archive scanner (get_streaming_start_point), the segment writer and
partial-segment guardian state, and the per-frame body of the receive
loop (LogStreaming).  Machine integers are modelled as Nat with explicit
reduction modulo 2^32 where the C code uses 32-bit unsigned arithmetic.
File-system effects are recorded as an explicit action trace.
-/

namespace PgStreamRecv

/-- Segment size S: the XLogSegSize compile-time constant, 16 MiB. -/
def XLogSegSize : Nat := 16777216

/-- Modulus of 32-bit unsigned arithmetic (uint32 values in the C code). -/
def UINT32_MOD : Nat := 4294967296

/-- Modelled from the spec: segments per 4 GiB logical log file, used by the
carry rule of next_segment (the NextLogSeg macro lives in PostgreSQL's
xlog_internal.h header, outside this repository): 2^32 / S = 256. -/
def XLogSegsPerLogFile : Nat := UINT32_MOD / XLogSegSize

/-- STREAMING_HEADER_SIZE macro: 1 byte tag + 8 start + 8 end + 8 send-time. -/
def STREAMING_HEADER_SIZE : Nat := 25

/-- Byte value of the copy-stream tag character for wal data frames. -/
def wTag : Nat := 119

/-- ISHEX macro from pg_streamrecv.c: digit or uppercase A-F. -/
def ISHEX (c : Char) : Bool :=
  decide ((48 ≤ c.toNat ∧ c.toNat ≤ 57) ∨ (65 ≤ c.toNat ∧ c.toNat ≤ 70))

/-- Hex digits accepted by sscanf %X: digits, uppercase and lowercase a-f. -/
def isHexDigitChar (c : Char) : Bool :=
  decide ((48 ≤ c.toNat ∧ c.toNat ≤ 57) ∨ (65 ≤ c.toNat ∧ c.toNat ≤ 70) ∨
          (97 ≤ c.toNat ∧ c.toNat ≤ 102))

/-- Numeric value of one hex digit character (0 for non-digits). -/
def hexDigitVal (c : Char) : Nat :=
  if 48 ≤ c.toNat ∧ c.toNat ≤ 57 then c.toNat - 48
  else if 65 ≤ c.toNat ∧ c.toNat ≤ 70 then c.toNat - 55
  else if 97 ≤ c.toNat ∧ c.toNat ≤ 102 then c.toNat - 87
  else 0

/-- Value of a string of hex digits, most significant first. -/
def hexValOf : List Char → Nat
  | [] => 0
  | c :: r => hexDigitVal c * 16 ^ r.length + hexValOf r

/-- Uppercase hex digit character for a value below 16 (printf %X digit). -/
def hexDigit (n : Nat) : Char :=
  if n < 10 then Char.ofNat (48 + n) else Char.ofNat (55 + n)

/-- Fixed-width 8-digit uppercase hex rendering (printf %08X of a uint32). -/
def hex8 (n : Nat) : List Char :=
  [hexDigit (n / 268435456 % 16), hexDigit (n / 16777216 % 16),
   hexDigit (n / 1048576 % 16), hexDigit (n / 65536 % 16),
   hexDigit (n / 4096 % 16), hexDigit (n / 256 % 16),
   hexDigit (n / 16 % 16), hexDigit (n % 16)]

/-- Minimal-width uppercase hex rendering (printf %X). -/
def hexPrint (n : Nat) : List Char :=
  if n < 16 then [hexDigit n]
  else hexPrint (n / 16) ++ [hexDigit (n % 16)]
decreasing_by exact Nat.div_lt_self (by omega) (by omega)

/-- Rendering of a WAL position in the %X/%X wire format. -/
def xlogPosString (xlogid xrecoff : Nat) : List Char :=
  hexPrint xlogid ++ '/' :: hexPrint xrecoff

/-- Parse of a %X/%X position string, as sscanf(xlogpos, ...) does in
start_streaming: a run of hex digits, a slash, a second run; each value
is reduced modulo 2^32 (unsigned int).  None when fewer than two fields
match. -/
def parseXlogPos (s : List Char) : Option (Nat × Nat) :=
  let d1 := s.takeWhile isHexDigitChar
  let rest := s.dropWhile isHexDigitChar
  if d1.isEmpty then none
  else
    match rest with
    | x :: r2 =>
      if x = '/' then
        let d2 := r2.takeWhile isHexDigitChar
        if d2.isEmpty then none
        else some (hexValOf d1 % UINT32_MOD, hexValOf d2 % UINT32_MOD)
      else none
    | [] => none

/-- WAL position: upper 32-bit log id and lower 32-bit byte offset. -/
structure XLogRecPtr where
  xlogid : Nat
  xrecoff : Nat
deriving Repr, DecidableEq

/-- Little-endian 32-bit value from four bytes (host byte order of the
memcpy decode, modelled as little-endian). -/
def le32 (b0 b1 b2 b3 : Nat) : Nat :=
  b0 + 256 * b1 + 65536 * b2 + 16777216 * b3

/-- Decode of memcpy(&startpoint, copybuf + 1, 8): frame bytes 1..4 hold
xlogid and bytes 5..8 hold xrecoff. -/
def decodeRecPtr (copybuf : List Nat) : XLogRecPtr :=
  { xlogid := le32 (copybuf.getD 1 0) (copybuf.getD 2 0)
                   (copybuf.getD 3 0) (copybuf.getD 4 0)
  , xrecoff := le32 (copybuf.getD 5 0) (copybuf.getD 6 0)
                    (copybuf.getD 7 0) (copybuf.getD 8 0) }

/-- In-segment offset of a frame's start position, xlogoff in the loop. -/
def xlogoffOf (copybuf : List Nat) : Nat :=
  (decodeRecPtr copybuf).xrecoff % XLogSegSize

/-- Modelled from the spec: segname(T,L,N), the XLogFileName macro of
PostgreSQL's xlog_internal.h (outside this repository): three fixed-width
8-hex-digit fields concatenated. -/
def XLogFileName (tli log seg : Nat) : List Char :=
  hex8 tli ++ hex8 log ++ hex8 seg

/-- Modelled from the spec: parse(name), the XLogFromFileName macro of
PostgreSQL's xlog_internal.h (outside this repository): sscanf of three
8-hex-digit fields. -/
def XLogFromFileName (name : List Char) : Nat × Nat × Nat :=
  (hexValOf (name.take 8), hexValOf ((name.drop 8).take 8),
   hexValOf ((name.drop 16).take 8))

/-- Modelled from the spec: next_segment(L,N), the NextLogSeg macro of
PostgreSQL's xlog_internal.h (outside this repository): advance to (L,N+1)
with carry into L when (N+1)*S would overflow the 32-bit low half, on
uint32 arithmetic. -/
def NextLogSeg (log seg : Nat) : Nat × Nat :=
  if seg + 1 ≥ XLogSegsPerLogFile then ((log + 1) % UINT32_MOD, 0)
  else (log, seg + 1)

/-- filename_to_logpos: convert a WAL file name to a %X/%X position string,
optionally advancing by one segment first.  The multiplication
seg * XLogSegSize is uint32 arithmetic in the C code, hence the modulus. -/
def filename_to_logpos (filename : List Char) (add_segment : Bool) : List Char :=
  let t := XLogFromFileName filename
  let ls := if add_segment then NextLogSeg t.2.1 t.2.2 else (t.2.1, t.2.2)
  xlogPosString (ls.1 % UINT32_MOD) (ls.2 * XLogSegSize % UINT32_MOD)

/-- Error taxonomy: one constructor per distinct fatal diagnostic reachable
from the embedded code paths. -/
inductive ErrKind
  | InvalidXlogFormat
  | ReadError
  | ShortFrame
  | BadTag
  | ShortSegment
  | FrameMisaligned
  | NotAtBoundary
  | MoreThanOneInprogress
  | NonFileEntry
  | UnknownFile
  | StaleSaveFile
deriving Repr, DecidableEq

/-- start_streaming: parse the position string, round the low half down to
a segment boundary, and return the position put into the
START_REPLICATION command. -/
def start_streaming (xlogpos : List Char) : Except ErrKind (Nat × Nat) :=
  match parseXlogPos xlogpos with
  | none => .error .InvalidXlogFormat
  | some (uxlogid, uxrecoff) =>
    .ok (uxlogid,
         if uxrecoff % XLogSegSize ≠ 0 then uxrecoff - uxrecoff % XLogSegSize
         else uxrecoff)

/-- Partial-Segment Guardian state: remove_when_passed_name and
remove_when_passed_size (path relative to the inprogress directory). -/
structure SaveInfo where
  path : List Char
  size : Nat
deriving Repr, DecidableEq

/-- Currently-open segment file: its name, the lseek write position, and
the bytes written so far. -/
structure WalFile where
  name : List Char
  off : Nat
  content : List Nat
deriving Repr, DecidableEq

/-- Receive-loop state: the optional open segment file (walfile fd plus
current_walfile_name) and the optional guardian record. -/
structure LoopState where
  walfile : Option WalFile
  guardian : Option SaveInfo
deriving Repr, DecidableEq

/-- File-system effects performed by the receive loop, in program order. -/
inductive FsAction
  | fsyncFile : List Char → FsAction
  | closeFile : List Char → FsAction
  | unlinkSave : List Char → FsAction
  | renameToArchive : List Char → FsAction
  | openSegment : List Char → FsAction
  | writeBytes : List Char → List Nat → FsAction
deriving Repr, DecidableEq

/-- open_walfile: create the segment file named for the frame's position in
the inprogress directory, with write offset zero. -/
def open_walfile (timeline : Nat) (startpoint : XLogRecPtr) : WalFile :=
  { name := XLogFileName timeline startpoint.xlogid
              (startpoint.xrecoff / XLogSegSize)
  , off := 0
  , content := [] }

/-- Common tail of every accepted frame: write the payload at the current
position, then apply the guardian's in-segment catch-up rule
(remove_when_passed_size < lseek(walfile, 0, SEEK_CUR)). -/
def writeTail (w : WalFile) (g : Option SaveInfo) (acts : List FsAction)
    (payload : List Nat) : LoopState × List FsAction :=
  let w2 : WalFile :=
    { name := w.name, off := w.off + payload.length
    , content := w.content ++ payload }
  let acts2 := acts ++ [FsAction.writeBytes w.name payload]
  match g with
  | some sv =>
    if sv.size < w2.off then
      ({ walfile := some w2, guardian := none },
       acts2 ++ [FsAction.unlinkSave sv.path])
    else
      ({ walfile := some w2, guardian := some sv }, acts2)
  | none => ({ walfile := some w2, guardian := none }, acts2)

/-- Rollover handling when a frame with in-segment offset zero arrives while
a file is open and full: fsync and close the old file, retire the .save
file if one is recorded, rename the old file into the archive, open the
new segment, then write the payload. -/
def doRollover (timeline : Nat) (w : WalFile) (g : Option SaveInfo)
    (startpoint : XLogRecPtr) (payload : List Nat) :
    LoopState × List FsAction :=
  let nw := open_walfile timeline startpoint
  writeTail nw none
    ([FsAction.fsyncFile w.name, FsAction.closeFile w.name] ++
     (match g with
      | some sv => [FsAction.unlinkSave sv.path]
      | none => []) ++
     [FsAction.renameToArchive w.name] ++
     [FsAction.openSegment nw.name])
    payload

/-- Body of the receive loop for one copy-data buffer (LogStreaming,
src/pg_streamrecv.c lines 917-1044): header validation, the three
position-dispatch branches, the payload write and the guardian rules. -/
def processFrame (timeline : Nat) (s : LoopState) (copybuf : List Nat) :
    Except ErrKind (LoopState × List FsAction) :=
  if copybuf.length < STREAMING_HEADER_SIZE + 1 then .error .ShortFrame
  else if copybuf.getD 0 0 ≠ wTag then .error .BadTag
  else
    match s.walfile with
    | some w =>
      if xlogoffOf copybuf = 0 then
        if w.off ≠ XLogSegSize then .error .ShortSegment
        else
          .ok (doRollover timeline w s.guardian (decodeRecPtr copybuf)
                (copybuf.drop STREAMING_HEADER_SIZE))
      else
        if w.off ≠ xlogoffOf copybuf then .error .FrameMisaligned
        else .ok (writeTail w s.guardian [] (copybuf.drop STREAMING_HEADER_SIZE))
    | none =>
      if xlogoffOf copybuf ≠ 0 then .error .NotAtBoundary
      else
        .ok (writeTail (open_walfile timeline (decodeRecPtr copybuf)) s.guardian
              [FsAction.openSegment
                (open_walfile timeline (decodeRecPtr copybuf)).name]
              (copybuf.drop STREAMING_HEADER_SIZE))

/-- One message from PQgetCopyData: clean end (-1), read error (-2), or a
data buffer of r bytes. -/
inductive CopyMsg
  | copyDone
  | copyErr
  | data : List Nat → CopyMsg

/-- Outcome of one iteration of the receive loop. -/
inductive StepOutcome
  | finished : LoopState → StepOutcome
  | fatal : ErrKind → StepOutcome
  | next : LoopState → List FsAction → StepOutcome
deriving Repr, DecidableEq

/-- One iteration of the receive loop on a copy message: break on clean
end, fatal on read error, otherwise process the frame. -/
def loopStep (timeline : Nat) (s : LoopState) (m : CopyMsg) : StepOutcome :=
  match m with
  | .copyDone => .finished s
  | .copyErr => .fatal .ReadError
  | .data copybuf =>
    match processFrame timeline s copybuf with
    | .error e => .fatal e
    | .ok (s2, acts) => .next s2 acts

/-- Run of the receive loop over a list of data frames, accumulating the
action trace; stops at the first fatal error. -/
def runFrames (timeline : Nat) (s : LoopState) :
    List (List Nat) → Except ErrKind (LoopState × List FsAction)
  | [] => .ok (s, [])
  | copybuf :: rest =>
    match processFrame timeline s copybuf with
    | .error e => .error e
    | .ok (s2, acts) =>
      match runFrames timeline s2 rest with
      | .error e => .error e
      | .ok (s3, acts2) => .ok (s3, acts ++ acts2)

/-- One directory entry as seen by readdir plus stat: name, regular-file
flag, and size. -/
structure DirEntry where
  name : List Char
  isReg : Bool
  size : Nat
deriving Repr, DecidableEq

/-- Name of the current-directory entry skipped by the scans. -/
def dotName : List Char := ['.']

/-- Name of the parent-directory entry skipped by the scans. -/
def dotDotName : List Char := ['.', '.']

/-- The ".save" suffix appended when a partial segment is set aside. -/
def saveSuffix : List Char := ['.', 's', 'a', 'v', 'e']

/-- C strcmp(a, b) > 0 on the two names (byte comparison of the first
differing character). -/
def strcmpGt : List Char → List Char → Bool
  | [], _ => false
  | _ :: _, [] => true
  | a :: as, b :: bs => if a = b then strcmpGt as bs else decide (b.toNat < a.toNat)

/-- The readdir loop over the inprogress directory (lines 329-356): skip
dot entries, fail if a second file shows up, fail on a non-regular entry,
otherwise remember the single entry. -/
def scanInprogressDir : List DirEntry → Option DirEntry →
    Except ErrKind (Option DirEntry)
  | [], found => .ok found
  | e :: rest, found =>
    if e.name = dotName ∨ e.name = dotDotName then scanInprogressDir rest found
    else
      match found with
      | some _ => .error .MoreThanOneInprogress
      | none =>
        if e.isReg then scanInprogressDir rest (some e)
        else .error .NonFileEntry

/-- The readdir loop over the archive directory (lines 462-503): keep the
strcmp-largest name of exactly 24 ISHEX characters; note no stat and no
regular-file check is performed here. -/
def archiveBest : List DirEntry → Option (List Char) → Option (List Char)
  | [], best => best
  | e :: rest, best =>
    if e.name = dotName ∨ e.name = dotDotName then archiveBest rest best
    else if e.name.length ≠ 24 then archiveBest rest best
    else if ¬ (e.name.all ISHEX) then archiveBest rest best
    else
      match best with
      | none => archiveBest rest (some e.name)
      | some b =>
        if strcmpGt e.name b then archiveBest rest (some e.name)
        else archiveBest rest best

/-- get_streaming_start_point (lines 308-521): decide the resume position
from the two directory listings.  Returns the optional %X/%X position
string (none means: ask the server) together with the guardian state
created when a partial segment was set aside.  The guardian path is kept
relative to the inprogress directory. -/
def get_streaming_start_point (inprog archive : List DirEntry) :
    Except ErrKind (Option (List Char) × Option SaveInfo) :=
  match scanInprogressDir inprog none with
  | .error e => .error e
  | .ok (some e) =>
    if e.name.length = 24 then
      if e.name.all ISHEX then
        .ok (some (filename_to_logpos e.name false),
             some { path := e.name ++ saveSuffix, size := e.size })
      else .error .UnknownFile
    else if e.name.length = 29 then
      if e.name.drop 24 = saveSuffix then .error .StaleSaveFile
      else .error .UnknownFile
    else .error .UnknownFile
  | .ok none =>
    match archiveBest archive none with
    | some b => .ok (some (filename_to_logpos b true), none)
    | none => .ok (none, none)

/-- Resume decision of LogStreaming (lines 842-907): the scanner's position
when it found one, otherwise the server-reported current location; either
way the string goes through start_streaming. -/
def resumeCommand (inprog archive : List DirEntry) (serverPos : List Char) :
    Except ErrKind (Nat × Nat) :=
  match get_streaming_start_point inprog archive with
  | .error e => .error e
  | .ok (some pos, _) => start_streaming pos
  | .ok (none, _) => start_streaming serverPos

/-- Invariant 4 of the spec: the open segment's on-disk size equals the
expected write offset. -/
def sizeInv (s : LoopState) : Prop :=
  match s.walfile with
  | some w => w.content.length = w.off
  | none => True

/-- Count of .save unlink actions in a trace. -/
def countUnlink (acts : List FsAction) : Nat :=
  (acts.filter fun a =>
    match a with
    | .unlinkSave _ => true
    | _ => false).length

/-- One when the guardian holds a .save record, zero otherwise. -/
def guardBit (s : LoopState) : Nat :=
  if s.guardian.isSome then 1 else 0

/-- True for directory entries other than the dot and dot-dot entries. -/
def nonDot (e : DirEntry) : Bool :=
  decide (¬ (e.name = dotName ∨ e.name = dotDotName))

/-- The entries of a directory listing that the scans do not skip. -/
def realEntries (ents : List DirEntry) : List DirEntry :=
  ents.filter nonDot

/-- Valid segment file name: exactly 24 characters, all ISHEX. -/
def validSegName (l : List Char) : Bool :=
  decide (l.length = 24) && l.all ISHEX

/-- Names the archive scan considers when picking the resume segment. -/
def archCands (archive : List DirEntry) : List (List Char) :=
  (archive.map DirEntry.name).filter validSegName

/-- Sample frame: tag w, start position 0/0, one payload byte. -/
def bufZero1 : List Nat := wTag :: (List.replicate 24 0 ++ [55])

/-- Sample frame: like bufZero1 but with nonzero end-position and
send-time header bytes. -/
def bufJunkHeader : List Nat :=
  wTag :: (List.replicate 8 0 ++ List.replicate 16 9 ++ [55])

/-- Sample segment name 000000010000000000000009. -/
def seg9Name : List Char :=
  ['0', '0', '0', '0', '0', '0', '0', '1', '0', '0', '0', '0',
   '0', '0', '0', '0', '0', '0', '0', '0', '0', '0', '0', '9']

/-- Name of the segment opened for timeline 1 at position 0/0. -/
def seg100Name : List Char := XLogFileName 1 0 0

/-- Sample loop state: segment 9 open and full, guardian holding its
saved-aside partial of 100 bytes. -/
def rolloverState : LoopState :=
  { walfile := some { name := seg9Name, off := XLogSegSize, content := [] }
  , guardian := some { path := seg9Name ++ saveSuffix, size := 100 } }

/-- Action trace the embedded loop produces for bufZero1 in rolloverState. -/
def rolloverTrace : List FsAction :=
  [.fsyncFile seg9Name, .closeFile seg9Name,
   .unlinkSave (seg9Name ++ saveSuffix), .renameToArchive seg9Name,
   .openSegment seg100Name, .writeBytes seg100Name [55]]

/-- Sample frame at position 0/0 whose payload is one full segment. -/
def bufSeg0Full : List Nat := wTag :: List.replicate (24 + XLogSegSize) 0

/-- Sample archived segment name ...001. -/
def nameA : List Char :=
  ['0', '0', '0', '0', '0', '0', '0', '1', '0', '0', '0', '0',
   '0', '0', '0', '0', '0', '0', '0', '0', '0', '0', '0', '1']

/-- Sample archived segment name ...002, lexicographically above nameA. -/
def nameB : List Char :=
  ['0', '0', '0', '0', '0', '0', '0', '1', '0', '0', '0', '0',
   '0', '0', '0', '0', '0', '0', '0', '0', '0', '0', '0', '2']

/-- C7: the receive loop accepts a copy-stream frame only when its first
byte is the tag w and its total length is at least 26 bytes; shorter
frames, other tags, and non-positive body lengths are fatal, as is a read
error from the copy stream. -/
theorem C7_frame_acceptance :
    (∀ tli s, loopStep tli s CopyMsg.copyErr = .fatal .ReadError) ∧
    (∀ tli s buf, buf.length < 26 →
      loopStep tli s (.data buf) = .fatal .ShortFrame) ∧
    (∀ tli s buf, 26 ≤ buf.length → buf.getD 0 0 ≠ wTag →
      loopStep tli s (.data buf) = .fatal .BadTag) ∧
    (∀ tli s buf s2 acts, loopStep tli s (.data buf) = .next s2 acts →
      26 ≤ buf.length ∧ buf.getD 0 0 = wTag) := by
  refine ⟨fun tli s => rfl, ?_, ?_, ?_⟩
  · intro tli s buf h
    simp [loopStep, processFrame, STREAMING_HEADER_SIZE, h]
  · intro tli s buf h1 h2
    have h2b : buf[0]?.getD 0 ≠ wTag := by
      simpa [List.getD_eq_getElem?_getD] using h2
    simp [loopStep, processFrame, STREAMING_HEADER_SIZE, Nat.not_lt.mpr h1, h2b]
  · intro tli s buf s2 acts h
    by_cases h1 : buf.length < 26
    · simp [loopStep, processFrame, STREAMING_HEADER_SIZE, h1] at h
    · by_cases h2 : buf.getD 0 0 = wTag
      · exact ⟨Nat.not_lt.mp h1, h2⟩
      · have h2b : buf[0]?.getD 0 ≠ wTag := by
          simpa [List.getD_eq_getElem?_getD] using h2
        simp [loopStep, processFrame, STREAMING_HEADER_SIZE, h1, h2b] at h

/-- C7 witness: concrete instances of each acceptance clause. -/
theorem C7_frame_acceptance_witness :
    loopStep 1 ⟨none, none⟩ CopyMsg.copyErr = .fatal .ReadError ∧
    loopStep 1 ⟨none, none⟩ (.data [119]) = .fatal .ShortFrame ∧
    loopStep 1 ⟨none, none⟩ (.data (107 :: List.replicate 25 0)) =
      .fatal .BadTag :=
  ⟨C7_frame_acceptance.1 1 ⟨none, none⟩,
   C7_frame_acceptance.2.1 1 ⟨none, none⟩ [119] (by decide),
   C7_frame_acceptance.2.2.1 1 ⟨none, none⟩ (107 :: List.replicate 25 0)
     (by decide) (by decide)⟩

/-- C9: the receive loop's behaviour on a frame depends only on the tag
byte, the 8 start-position bytes (frame bytes 1 through 8), the frame
length, and the payload from offset 25 onward; the 16 end-position and
send-time bytes are never read. -/
theorem C9_header_independence (tli : Nat) (s : LoopState) (b1 b2 : List Nat)
    (hlen : b1.length = b2.length) (h0 : b1.getD 0 0 = b2.getD 0 0)
    (hpos : ∀ i, 1 ≤ i → i ≤ 8 → b1.getD i 0 = b2.getD i 0)
    (hpay : b1.drop 25 = b2.drop 25) :
    processFrame tli s b1 = processFrame tli s b2 := by
  have hdec : decodeRecPtr b1 = decodeRecPtr b2 := by
    unfold decodeRecPtr
    rw [hpos 1 (by omega) (by omega), hpos 2 (by omega) (by omega),
        hpos 3 (by omega) (by omega), hpos 4 (by omega) (by omega),
        hpos 5 (by omega) (by omega), hpos 6 (by omega) (by omega),
        hpos 7 (by omega) (by omega), hpos 8 (by omega) (by omega)]
  simp only [processFrame, xlogoffOf, STREAMING_HEADER_SIZE, hlen, h0, hdec, hpay]

/-- C9 witness: two concrete accepted frames differing only in the 16
skipped header bytes produce the same result. -/
theorem C9_header_independence_witness :
    processFrame 1 ⟨none, none⟩ bufZero1 = processFrame 1 ⟨none, none⟩ bufJunkHeader ∧
    bufZero1.drop 25 = bufJunkHeader.drop 25 :=
  ⟨C9_header_independence 1 ⟨none, none⟩ bufZero1 bufJunkHeader (by decide)
    (by decide) (by decide) (by decide), by decide⟩

/-- Every accepted frame preserves the retirement accounting: the number of
unlink actions it emits plus the resulting guardian bit equals the prior
guardian bit. -/
theorem countUnlink_step (tli : Nat) (s : LoopState) (buf : List Nat)
    (p : LoopState × List FsAction)
    (hok : processFrame tli s buf = .ok p) :
    countUnlink p.2 + guardBit p.1 = guardBit s := by
  unfold processFrame at hok
  split at hok
  · exact Except.noConfusion hok
  split at hok
  · exact Except.noConfusion hok
  split at hok
  next w hw =>
    split at hok
    · split at hok
      · exact Except.noConfusion hok
      · injection hok with h
        subst h
        cases hg : s.guardian <;>
          simp [doRollover, writeTail, countUnlink, guardBit, hg]
    · split at hok
      · exact Except.noConfusion hok
      · injection hok with h
        subst h
        cases hg : s.guardian
        · simp [writeTail, countUnlink, guardBit, hg]
        · simp only [writeTail, hg]
          split <;> simp [countUnlink, guardBit, hg]
  next hw =>
    split at hok
    · exact Except.noConfusion hok
    · injection hok with h
      subst h
      cases hg : s.guardian
      · simp [writeTail, countUnlink, guardBit, hg]
      · simp only [writeTail, hg]
        split <;> simp [countUnlink, guardBit, hg]

/-- C10: across any error-free run of the receive loop, the number of .save
unlink actions plus the final guardian bit equals the initial guardian
bit; in particular the .save file is unlinked at most once, whichever
retirement rule fires first clears the recorded path, and no second
unlink is ever attempted. -/
theorem C10_single_retirement (tli : Nat) (s : LoopState)
    (frames : List (List Nat)) (s2 : LoopState) (acts : List FsAction)
    (hok : runFrames tli s frames = .ok (s2, acts)) :
    countUnlink acts + guardBit s2 = guardBit s ∧ countUnlink acts ≤ 1 := by
  have key : ∀ (fs : List (List Nat)) (st st2 : LoopState) (a : List FsAction),
      runFrames tli st fs = .ok (st2, a) →
      countUnlink a + guardBit st2 = guardBit st := by
    intro fs
    induction fs with
    | nil =>
      intro st st2 a h
      simp only [runFrames, Except.ok.injEq, Prod.mk.injEq] at h
      obtain ⟨rfl, rfl⟩ := h
      simp [countUnlink]
    | cons buf rest ih =>
      intro st st2 a h
      cases hpf : processFrame tli st buf with
      | error e => simp [runFrames, hpf] at h
      | ok p =>
        obtain ⟨ps, pa⟩ := p
        cases hrr : runFrames tli ps rest with
        | error e => simp [runFrames, hpf, hrr] at h
        | ok q =>
          obtain ⟨qs, qa⟩ := q
          simp only [runFrames, hpf, hrr, Except.ok.injEq, Prod.mk.injEq] at h
          obtain ⟨rfl, rfl⟩ := h
          have hstep := countUnlink_step tli st buf (ps, pa) hpf
          have hrest := ih ps qs qa hrr
          have happ : countUnlink (pa ++ qa) = countUnlink pa + countUnlink qa := by
            simp [countUnlink, List.filter_append]
          simp only at hstep hrest
          omega
  have h1 := key frames s s2 acts hok
  refine ⟨h1, ?_⟩
  have : guardBit s ≤ 1 := by
    unfold guardBit
    split <;> omega
  omega

/-- C10 witness: a concrete run from a guardian-holding state performs
exactly one unlink. -/
theorem C10_single_retirement_witness :
    runFrames 1 ⟨none, some ⟨seg9Name ++ saveSuffix, 0⟩⟩ [bufZero1] =
      .ok (⟨some ⟨seg100Name, 1, [55]⟩, none⟩,
           [.openSegment seg100Name, .writeBytes seg100Name [55],
            .unlinkSave (seg9Name ++ saveSuffix)]) ∧
    countUnlink [.openSegment seg100Name, .writeBytes seg100Name [55],
            .unlinkSave (seg9Name ++ saveSuffix)] +
      guardBit ⟨some ⟨seg100Name, 1, [55]⟩, none⟩ =
      guardBit ⟨none, some ⟨seg9Name ++ saveSuffix, 0⟩⟩ :=
  ⟨by rfl,
   (C10_single_retirement 1 ⟨none, some ⟨seg9Name ++ saveSuffix, 0⟩⟩ [bufZero1]
     ⟨some ⟨seg100Name, 1, [55]⟩, none⟩
     [.openSegment seg100Name, .writeBytes seg100Name [55],
      .unlinkSave (seg9Name ++ saveSuffix)] (by rfl)).1⟩

/-- C1 counterexample: at a concrete rollover with a recorded .save file,
the loop unlinks the .save file before renaming the finished segment into
the archive, so the claimed order (rename first, deletion only after) is
false on the code. -/
theorem C1_counterexample :
    processFrame 1 rolloverState bufZero1 =
      .ok (⟨some ⟨seg100Name, 1, [55]⟩, none⟩, rolloverTrace) ∧
    rolloverTrace.indexOf (FsAction.unlinkSave (seg9Name ++ saveSuffix)) <
      rolloverTrace.indexOf (FsAction.renameToArchive seg9Name) :=
  ⟨by rfl, by decide⟩

/-- C1 amended: on a rollover frame with a recorded .save file, the loop
emits exactly, in order, fsync of the old segment, close, unlink of the
.save file, rename of the old segment into the archive, creation of the
new segment, and the payload write. -/
theorem C1_rollover_order (tli : Nat) (s : LoopState) (w : WalFile)
    (sv : SaveInfo) (buf : List Nat)
    (hw : s.walfile = some w) (hg : s.guardian = some sv)
    (hlen : 26 ≤ buf.length) (htag : buf.getD 0 0 = wTag)
    (hxo : xlogoffOf buf = 0) (hoff : w.off = XLogSegSize) :
    processFrame tli s buf =
      .ok (⟨some ⟨(open_walfile tli (decodeRecPtr buf)).name,
                  (buf.drop 25).length, buf.drop 25⟩, none⟩,
           [.fsyncFile w.name, .closeFile w.name, .unlinkSave sv.path,
            .renameToArchive w.name,
            .openSegment (open_walfile tli (decodeRecPtr buf)).name,
            .writeBytes (open_walfile tli (decodeRecPtr buf)).name
              (buf.drop 25)]) := by
  have hlen2 : ¬ buf.length < 26 := by omega
  have htag2 : buf[0]?.getD 0 = wTag := by
    simpa [List.getD_eq_getElem?_getD] using htag
  simp [processFrame, hlen2, htag, htag2, hw, hg, hxo, hoff, doRollover,
        writeTail, open_walfile, STREAMING_HEADER_SIZE]

/-- C1 witness: the amended order theorem instantiated at the concrete
rollover state. -/
theorem C1_rollover_order_witness :
    rolloverState.guardian = some ⟨seg9Name ++ saveSuffix, 100⟩ ∧
    processFrame 1 rolloverState bufZero1 =
      .ok (⟨some ⟨seg100Name, 1, [55]⟩, none⟩, rolloverTrace) := by
  refine ⟨rfl, ?_⟩
  have h := C1_rollover_order 1 rolloverState ⟨seg9Name, XLogSegSize, []⟩
    ⟨seg9Name ++ saveSuffix, 100⟩ bufZero1 rfl rfl (by decide) (by decide)
    (by rfl) rfl
  rw [h]
  rfl

/-- C4: with a .save file recorded, an accepted frame unlinks it exactly
when the frame is a rollover (a file was open and the in-segment offset
is zero) or when the write offset after the payload strictly exceeds
save_size; the recorded path is cleared exactly when the unlink happens,
so the file is never deleted while the offset is at most save_size. -/
theorem C4_save_retirement (tli : Nat) (s : LoopState) (sv : SaveInfo)
    (buf : List Nat) (p : LoopState × List FsAction) (w2 : WalFile)
    (hg : s.guardian = some sv)
    (hok : processFrame tli s buf = .ok p)
    (hw2 : p.1.walfile = some w2) :
    ((FsAction.unlinkSave sv.path ∈ p.2) ↔
      ((s.walfile.isSome ∧ xlogoffOf buf = 0) ∨ sv.size < w2.off)) ∧
    (p.1.guardian = none ↔ FsAction.unlinkSave sv.path ∈ p.2) := by
  unfold processFrame at hok
  split at hok
  · exact Except.noConfusion hok
  split at hok
  · exact Except.noConfusion hok
  split at hok
  next w hw =>
    split at hok
    next hxo =>
      split at hok
      · exact Except.noConfusion hok
      · injection hok with h
        subst h
        simp only [doRollover, writeTail, hg] at hw2 ⊢
        simp only [Option.some.injEq] at hw2
        simp [hw, hxo]
    next hxo =>
      split at hok
      · exact Except.noConfusion hok
      · injection hok with h
        subst h
        simp only [writeTail, hg] at hw2 ⊢
        split at hw2
        next hlt =>
          simp only [Option.some.injEq] at hw2
          subst hw2
          simp only [List.length_drop] at hlt
          simp [hxo, hlt]
        next hlt =>
          simp only [Option.some.injEq] at hw2
          subst hw2
          simp only [List.length_drop] at hlt
          simp [hxo, hlt]
  next hw =>
    split at hok
    · exact Except.noConfusion hok
    next hxo =>
      injection hok with h
      subst h
      simp only [writeTail, hg] at hw2 ⊢
      split at hw2
      next hlt =>
        simp only [Option.some.injEq] at hw2
        subst hw2
        simp only [List.length_drop] at hlt
        simp [hw, hlt]
      next hlt =>
        simp only [Option.some.injEq] at hw2
        subst hw2
        simp only [List.length_drop] at hlt
        simp [hw, hlt]

/-- C4 witness: the retirement characterization instantiated at a concrete
in-segment catch-up step (save_size 0, one payload byte, offset becomes
1 > 0, so the .save is unlinked and the path cleared). -/
theorem C4_save_retirement_witness :
    (FsAction.unlinkSave (seg9Name ++ saveSuffix) ∈
      [FsAction.openSegment seg100Name, FsAction.writeBytes seg100Name [55],
       FsAction.unlinkSave (seg9Name ++ saveSuffix)]) ↔
      ((LoopState.mk none (some ⟨seg9Name ++ saveSuffix, 0⟩)).walfile.isSome ∧
        xlogoffOf bufZero1 = 0) ∨ (0 : Nat) < 1 :=
  (C4_save_retirement 1 ⟨none, some ⟨seg9Name ++ saveSuffix, 0⟩⟩
    ⟨seg9Name ++ saveSuffix, 0⟩ bufZero1
    (⟨some ⟨seg100Name, 1, [55]⟩, none⟩,
     [FsAction.openSegment seg100Name, FsAction.writeBytes seg100Name [55],
      FsAction.unlinkSave (seg9Name ++ saveSuffix)])
    ⟨seg100Name, 1, [55]⟩ rfl (by rfl) rfl).1

/-- C2: for a well-formed frame, the loop accepts it exactly under the
frame-alignment discipline: with no file open the in-segment offset must
be zero (else fatal NotAtBoundary) and a segment is opened; with a file
open and offset zero the file size must equal S (else fatal ShortSegment)
and a rollover occurs; with a file open and a nonzero offset the offset
must equal the write position (else fatal FrameMisaligned); and the open
segment's content length equals the write offset after every accepted
frame. -/
theorem C2_frame_alignment (tli : Nat) (s : LoopState) (buf : List Nat)
    (hlen : 26 ≤ buf.length) (htag : buf.getD 0 0 = wTag) :
    (s.walfile = none → xlogoffOf buf ≠ 0 →
      processFrame tli s buf = .error .NotAtBoundary) ∧
    (s.walfile = none → xlogoffOf buf = 0 →
      ∃ p, processFrame tli s buf = .ok p ∧
        FsAction.openSegment (open_walfile tli (decodeRecPtr buf)).name ∈ p.2) ∧
    (∀ w, s.walfile = some w → xlogoffOf buf = 0 → w.off ≠ XLogSegSize →
      processFrame tli s buf = .error .ShortSegment) ∧
    (∀ w, s.walfile = some w → xlogoffOf buf = 0 → w.off = XLogSegSize →
      ∃ p, processFrame tli s buf = .ok p ∧
        FsAction.renameToArchive w.name ∈ p.2 ∧
        FsAction.openSegment (open_walfile tli (decodeRecPtr buf)).name ∈ p.2) ∧
    (∀ w, s.walfile = some w → xlogoffOf buf ≠ 0 → w.off ≠ xlogoffOf buf →
      processFrame tli s buf = .error .FrameMisaligned) ∧
    (∀ w, s.walfile = some w → xlogoffOf buf ≠ 0 → w.off = xlogoffOf buf →
      ∃ p, processFrame tli s buf = .ok p) ∧
    (sizeInv s → ∀ p, processFrame tli s buf = .ok p → sizeInv p.1) := by
  have hlen2 : ¬ buf.length < STREAMING_HEADER_SIZE + 1 := by
    simp only [STREAMING_HEADER_SIZE]
    omega
  have htag2 : buf[0]?.getD 0 = wTag := by
    simpa [List.getD_eq_getElem?_getD] using htag
  refine ⟨?_, ?_, ?_, ?_, ?_, ?_, ?_⟩
  · intro hw hxo
    simp [processFrame, hlen2, htag2, hw, hxo]
  · intro hw hxo
    refine ⟨writeTail (open_walfile tli (decodeRecPtr buf)) s.guardian
      [FsAction.openSegment (open_walfile tli (decodeRecPtr buf)).name]
      (buf.drop STREAMING_HEADER_SIZE), ?_, ?_⟩
    · simp [processFrame, hlen2, htag2, hw, hxo]
    · cases hg : s.guardian
      · simp [writeTail, hg]
      · simp only [writeTail, hg]
        split <;> simp
  · intro w hw hxo hoff
    simp [processFrame, hlen2, htag2, hw, hxo, hoff]
  · intro w hw hxo hoff
    refine ⟨doRollover tli w s.guardian (decodeRecPtr buf)
      (buf.drop STREAMING_HEADER_SIZE), ?_, ?_, ?_⟩
    · simp [processFrame, hlen2, htag2, hw, hxo, hoff]
    · cases hg : s.guardian <;>
        simp [doRollover, writeTail, hg]
    · cases hg : s.guardian <;>
        simp [doRollover, writeTail, hg]
  · intro w hw hxo hoff
    simp [processFrame, hlen2, htag2, hw, hxo, hoff]
  · intro w hw hxo hoff
    refine ⟨writeTail w s.guardian [] (buf.drop STREAMING_HEADER_SIZE), ?_⟩
    simp [processFrame, hlen2, htag2, hw, hxo, hoff]
  · intro hinv p hok
    unfold processFrame at hok
    split at hok
    · exact Except.noConfusion hok
    split at hok
    · exact Except.noConfusion hok
    split at hok
    next w hw =>
      split at hok
      · split at hok
        · exact Except.noConfusion hok
        · injection hok with h
          subst h
          simp [doRollover, writeTail, sizeInv, open_walfile]
      · split at hok
        · exact Except.noConfusion hok
        · injection hok with h
          subst h
          unfold sizeInv at hinv
          rw [hw] at hinv
          cases hg : s.guardian
          · simp [writeTail, sizeInv, hg, hinv]
          · simp only [writeTail, hg]
            split <;> simp [sizeInv, hinv]
    next hw =>
      split at hok
      · exact Except.noConfusion hok
      · injection hok with h
        subst h
        cases hg : s.guardian
        · simp [writeTail, sizeInv, hg, open_walfile]
        · simp only [writeTail, hg]
          split <;> simp [sizeInv, open_walfile]

/-- C2 witness: a concrete frame at segment offset zero arriving while a
file of size 7 is open is fatal ShortSegment. -/
theorem C2_frame_alignment_witness :
    processFrame 1 ⟨some ⟨seg9Name, 7, List.replicate 7 0⟩, none⟩ bufZero1 =
      .error .ShortSegment :=
  (C2_frame_alignment 1 ⟨some ⟨seg9Name, 7, List.replicate 7 0⟩, none⟩ bufZero1
    (by decide) (by decide)).2.2.1 ⟨seg9Name, 7, List.replicate 7 0⟩ rfl
    (by rfl) (by decide)

/-- Scanning skips every dot entry: with no real entries it keeps the
accumulator. -/
theorem scanInprogress_found_none (ents : List DirEntry) (e0 : DirEntry)
    (h : realEntries ents = []) :
    scanInprogressDir ents (some e0) = .ok (some e0) := by
  induction ents with
  | nil => rfl
  | cons a rest ih =>
    simp only [realEntries, List.filter] at h
    by_cases hd : (a.name = dotName ∨ a.name = dotDotName)
    · have : nonDot a = false := by simp [nonDot, hd]
      rw [this] at h
      simp only [scanInprogressDir, if_pos hd]
      exact ih h
    · have : nonDot a = true := by simp [nonDot, hd]
      rw [this] at h
      exact absurd h (by simp)

/-- A second real entry after a remembered one is fatal. -/
theorem scanInprogress_found_more (ents : List DirEntry) (e0 : DirEntry)
    (h : realEntries ents ≠ []) :
    scanInprogressDir ents (some e0) = .error .MoreThanOneInprogress := by
  induction ents with
  | nil => exact absurd rfl h
  | cons a rest ih =>
    simp only [realEntries, List.filter] at h
    by_cases hd : (a.name = dotName ∨ a.name = dotDotName)
    · have hnd : nonDot a = false := by simp [nonDot, hd]
      rw [hnd] at h
      simp only [scanInprogressDir, if_pos hd]
      exact ih h
    · simp only [scanInprogressDir, if_neg hd]

/-- With no real entries the inprogress scan reports nothing found. -/
theorem scanInprogress_empty (ents : List DirEntry)
    (h : realEntries ents = []) :
    scanInprogressDir ents none = .ok none := by
  induction ents with
  | nil => rfl
  | cons a rest ih =>
    simp only [realEntries, List.filter] at h
    by_cases hd : (a.name = dotName ∨ a.name = dotDotName)
    · have : nonDot a = false := by simp [nonDot, hd]
      rw [this] at h
      simp only [scanInprogressDir, if_pos hd]
      exact ih h
    · have : nonDot a = true := by simp [nonDot, hd]
      rw [this] at h
      exact absurd h (by simp)

/-- With exactly one real entry the inprogress scan returns it when it is
regular and fails NonFileEntry otherwise. -/
theorem scanInprogress_single (ents : List DirEntry) (e : DirEntry)
    (h : realEntries ents = [e]) :
    scanInprogressDir ents none =
      (if e.isReg then .ok (some e) else .error .NonFileEntry) := by
  induction ents with
  | nil => exact absurd h (by simp [realEntries])
  | cons a rest ih =>
    simp only [realEntries, List.filter] at h
    by_cases hd : (a.name = dotName ∨ a.name = dotDotName)
    · have : nonDot a = false := by simp [nonDot, hd]
      rw [this] at h
      simp only [scanInprogressDir, if_pos hd]
      exact ih h
    · have : nonDot a = true := by simp [nonDot, hd]
      rw [this] at h
      simp only [List.cons.injEq] at h
      obtain ⟨rfl, hrest⟩ := h
      simp only [scanInprogressDir, if_neg hd]
      by_cases hr : a.isReg
      · rw [if_pos hr, if_pos hr]
        exact scanInprogress_found_none rest a hrest
      · rw [if_neg hr, if_neg hr]

/-- With two or more real entries the inprogress scan is fatal. -/
theorem scanInprogress_many (ents : List DirEntry)
    (h : 2 ≤ (realEntries ents).length) :
    ∃ err, scanInprogressDir ents none = .error err ∧
      (err = ErrKind.MoreThanOneInprogress ∨ err = ErrKind.NonFileEntry) := by
  induction ents with
  | nil => simp [realEntries] at h
  | cons a rest ih =>
    simp only [realEntries, List.filter] at h
    by_cases hd : (a.name = dotName ∨ a.name = dotDotName)
    · have : nonDot a = false := by simp [nonDot, hd]
      rw [this] at h
      simp only [scanInprogressDir, if_pos hd]
      exact ih h
    · have : nonDot a = true := by simp [nonDot, hd]
      rw [this] at h
      simp only [List.length_cons] at h
      have hne : realEntries rest ≠ [] := by
        intro hc
        rw [realEntries] at hc
        rw [hc] at h
        simp at h
      simp only [scanInprogressDir, if_neg hd]
      by_cases hr : a.isReg
      · rw [if_pos hr]
        exact ⟨.MoreThanOneInprogress,
          scanInprogress_found_more rest a hne, Or.inl rfl⟩
      · rw [if_neg hr]
        exact ⟨.NonFileEntry, rfl, Or.inr rfl⟩

/-- C3 counterexample: a single regular inprogress entry named A.save ends
in .save, yet the scanner fails with the generic unknown-file error, not
StaleSaveFile; the .save special case fires only for names of exactly 29
characters. -/
theorem C3_counterexample :
    get_streaming_start_point [⟨'A' :: saveSuffix, true, 0⟩] [] =
      .error .UnknownFile ∧
    ('A' :: saveSuffix).drop 1 = saveSuffix ∧
    ErrKind.UnknownFile ≠ ErrKind.StaleSaveFile :=
  ⟨by rfl, by decide, by decide⟩

/-- C3 amended: with exactly one real entry in inprogress the scanner
renames a 24-uppercase-hex regular file to name.save, records that path
and the file size as the guardian state, and returns the position string
of the start of that segment; a 29-character regular entry ending in
.save is fatal StaleSaveFile; any other single regular entry is fatal
UnknownFile; a single non-regular entry is fatal NonFileEntry; two or
more real entries are fatal. -/
theorem C3_scanner_behavior :
    (∀ inprog archive e, realEntries inprog = [e] → e.isReg = true →
      e.name.length = 24 → e.name.all ISHEX = true →
      get_streaming_start_point inprog archive =
        .ok (some (filename_to_logpos e.name false),
             some ⟨e.name ++ saveSuffix, e.size⟩)) ∧
    (∀ inprog archive e, realEntries inprog = [e] → e.isReg = true →
      e.name.length = 29 → e.name.drop 24 = saveSuffix →
      get_streaming_start_point inprog archive = .error .StaleSaveFile) ∧
    (∀ inprog archive e, realEntries inprog = [e] → e.isReg = false →
      get_streaming_start_point inprog archive = .error .NonFileEntry) ∧
    (∀ inprog archive, 2 ≤ (realEntries inprog).length →
      ∃ err, get_streaming_start_point inprog archive = .error err ∧
        (err = ErrKind.MoreThanOneInprogress ∨ err = ErrKind.NonFileEntry)) ∧
    (∀ inprog archive e, realEntries inprog = [e] → e.isReg = true →
      ¬ (e.name.length = 24 ∧ e.name.all ISHEX = true) →
      ¬ (e.name.length = 29 ∧ e.name.drop 24 = saveSuffix) →
      get_streaming_start_point inprog archive = .error .UnknownFile) := by
  refine ⟨?_, ?_, ?_, ?_, ?_⟩
  · intro inprog archive e h1 h2 h3 h4
    have hs := scanInprogress_single inprog e h1
    rw [h2] at hs
    simp only [if_true] at hs
    simp [get_streaming_start_point, hs, h3, h4]
  · intro inprog archive e h1 h2 h3 h4
    have hs := scanInprogress_single inprog e h1
    rw [h2] at hs
    simp only [if_true] at hs
    have h5 : e.name.length ≠ 24 := by omega
    simp [get_streaming_start_point, hs, h3, h4, h5]
  · intro inprog archive e h1 h2
    have hs := scanInprogress_single inprog e h1
    rw [h2] at hs
    simp at hs
    simp [get_streaming_start_point, hs]
  · intro inprog archive h1
    obtain ⟨err, herr, hor⟩ := scanInprogress_many inprog h1
    exact ⟨err, by simp [get_streaming_start_point, herr], hor⟩
  · intro inprog archive e h1 h2 h3 h4
    have hs := scanInprogress_single inprog e h1
    rw [h2] at hs
    simp only [if_true] at hs
    by_cases h24 : e.name.length = 24
    · have hhex : ¬ e.name.all ISHEX = true := by
        intro hc
        exact h3 ⟨h24, hc⟩
      simp [get_streaming_start_point, hs, h24, hhex]
    · by_cases h29 : e.name.length = 29
      · have hsv : ¬ e.name.drop 24 = saveSuffix := by
          intro hc
          exact h4 ⟨h29, hc⟩
        simp [get_streaming_start_point, hs, h24, h29, hsv]
      · simp [get_streaming_start_point, hs, h24, h29]

/-- C3 witness: the amended scanner behaviour instantiated at a concrete
half-written segment 9 of 100 bytes. -/
theorem C3_scanner_behavior_witness :
    get_streaming_start_point [⟨seg9Name, true, 100⟩] [] =
      .ok (some (filename_to_logpos seg9Name false),
           some ⟨seg9Name ++ saveSuffix, 100⟩) :=
  C3_scanner_behavior.1 [⟨seg9Name, true, 100⟩] [] ⟨seg9Name, true, 100⟩
    (by decide) rfl (by decide) (by decide)

/-- Every hex digit character value is at most 15. -/
theorem hexDigitVal_le (c : Char) : hexDigitVal c ≤ 15 := by
  unfold hexDigitVal
  split_ifs <;> omega

/-- The value of a digit string is below 16 to its length. -/
theorem hexValOf_lt (l : List Char) : hexValOf l < 16 ^ l.length := by
  induction l with
  | nil => simp [hexValOf]
  | cons c r ih =>
    simp only [hexValOf, List.length_cons, pow_succ]
    have h1 : hexDigitVal c ≤ 15 := hexDigitVal_le c
    have h2 : hexDigitVal c * 16 ^ r.length ≤ 15 * 16 ^ r.length :=
      Nat.mul_le_mul_right _ h1
    have h3 : 0 < 16 ^ r.length := Nat.pos_pow_of_pos _ (by omega)
    calc hexDigitVal c * 16 ^ r.length + hexValOf r
        < hexDigitVal c * 16 ^ r.length + 16 ^ r.length := by omega
      _ = (hexDigitVal c + 1) * 16 ^ r.length := by ring
      _ ≤ 16 * 16 ^ r.length := Nat.mul_le_mul_right _ (by omega)
      _ = 16 ^ r.length * 16 := by ring

/-- hexDigit round-trips through hexDigitVal below 16. -/
theorem hexDigitVal_hexDigit (k : Nat) (h : k < 16) :
    hexDigitVal (hexDigit k) = k := by
  interval_cases k <;> decide

/-- hexDigit produces sscanf-acceptable hex digit characters. -/
theorem isHexDigitChar_hexDigit (k : Nat) (h : k < 16) :
    isHexDigitChar (hexDigit k) = true := by
  interval_cases k <;> decide

/-- hexPrint never prints the empty string. -/
theorem hexPrint_ne_nil (n : Nat) : hexPrint n ≠ [] := by
  rw [hexPrint]
  split
  · simp
  · simp

/-- Every character hexPrint emits is a hex digit. -/
theorem hexPrint_all_hex (n : Nat) :
    ∀ c ∈ hexPrint n, isHexDigitChar c = true := by
  induction n using Nat.strong_induction_on with
  | _ n ih =>
    rw [hexPrint]
    split
    next h =>
      intro c hc
      simp only [List.mem_singleton] at hc
      subst hc
      exact isHexDigitChar_hexDigit n h
    next h =>
      intro c hc
      rw [List.mem_append] at hc
      rcases hc with hc | hc
      · exact ih (n / 16) (Nat.div_lt_self (by omega) (by omega)) c hc
      · simp only [List.mem_singleton] at hc
        subst hc
        exact isHexDigitChar_hexDigit _ (Nat.mod_lt _ (by omega))

/-- Appending digit strings combines their values positionally. -/
theorem hexValOf_append (l1 l2 : List Char) :
    hexValOf (l1 ++ l2) = hexValOf l1 * 16 ^ l2.length + hexValOf l2 := by
  induction l1 with
  | nil => simp [hexValOf]
  | cons c r ih =>
    simp only [List.cons_append, hexValOf, ih, List.append_eq,
      List.length_append]
    rw [pow_add]
    ring

/-- hexPrint round-trips through hexValOf: printing then valuing any
number is the identity. -/
theorem hexValOf_hexPrint (n : Nat) : hexValOf (hexPrint n) = n := by
  induction n using Nat.strong_induction_on with
  | _ n ih =>
    rw [hexPrint]
    split
    next h =>
      simp [hexValOf, hexDigitVal_hexDigit n h]
    next h =>
      rw [hexValOf_append]
      simp only [hexValOf, List.length_nil, pow_zero, mul_one,
        List.length_cons, pow_succ]
      rw [ih (n / 16) (Nat.div_lt_self (by omega) (by omega))]
      rw [hexDigitVal_hexDigit _ (Nat.mod_lt _ (by omega))]
      simp only [pow_zero, one_mul, mul_one, add_zero]
      omega

/-- takeWhile stops exactly at the first failing character after an
all-satisfying prefix. -/
theorem takeWhile_all_append (p : Char → Bool) (l : List Char) (x : Char)
    (r : List Char) (hl : ∀ c ∈ l, p c = true) (hx : p x = false) :
    (l ++ x :: r).takeWhile p = l := by
  induction l with
  | nil => simp [List.takeWhile, hx]
  | cons a as ih =>
    have ha : p a = true := hl a (by simp)
    simp only [List.cons_append, List.takeWhile, ha, List.append_eq]
    rw [ih fun c hc => hl c (by simp [hc])]

/-- dropWhile removes exactly the all-satisfying prefix. -/
theorem dropWhile_all_append (p : Char → Bool) (l : List Char) (x : Char)
    (r : List Char) (hl : ∀ c ∈ l, p c = true) (hx : p x = false) :
    (l ++ x :: r).dropWhile p = x :: r := by
  induction l with
  | nil => simp [List.dropWhile, hx]
  | cons a as ih =>
    have ha : p a = true := hl a (by simp)
    simp only [List.cons_append, List.dropWhile, ha, List.append_eq]
    exact ih fun c hc => hl c (by simp [hc])

/-- takeWhile keeps an all-satisfying list whole. -/
theorem takeWhile_all (p : Char → Bool) (l : List Char)
    (hl : ∀ c ∈ l, p c = true) : l.takeWhile p = l := by
  induction l with
  | nil => rfl
  | cons a as ih =>
    have ha : p a = true := hl a (by simp)
    simp only [List.takeWhile, ha]
    rw [ih fun c hc => hl c (by simp [hc])]

/-- Printing a position with xlogPosString and parsing it back recovers
both halves modulo 2^32. -/
theorem parseXlogPos_round (a b : Nat) :
    parseXlogPos (xlogPosString a b) =
      some (a % UINT32_MOD, b % UINT32_MOD) := by
  have hslash : isHexDigitChar '/' = false := by decide
  have hne1 : (hexPrint a).isEmpty = false := by
    cases hp : hexPrint a with
    | nil => exact absurd hp (hexPrint_ne_nil a)
    | cons x xs => rfl
  have hne2 : (hexPrint b).isEmpty = false := by
    cases hp : hexPrint b with
    | nil => exact absurd hp (hexPrint_ne_nil b)
    | cons x xs => rfl
  unfold parseXlogPos xlogPosString
  rw [takeWhile_all_append isHexDigitChar (hexPrint a) '/' (hexPrint b)
    (hexPrint_all_hex a) hslash]
  rw [dropWhile_all_append isHexDigitChar (hexPrint a) '/' (hexPrint b)
    (hexPrint_all_hex a) hslash]
  simp [hne1, hne2, hexValOf_hexPrint,
    takeWhile_all isHexDigitChar (hexPrint b) (hexPrint_all_hex b)]

/-- Whatever string start_streaming parses, the low half of the command
position comes out a multiple of the segment size. -/
theorem start_streaming_aligned (s : List Char) (l off : Nat)
    (h : start_streaming s = .ok (l, off)) : off % XLogSegSize = 0 := by
  unfold start_streaming at h
  cases hp : parseXlogPos s with
  | none => rw [hp] at h; exact Except.noConfusion h
  | some q =>
    obtain ⟨x, y⟩ := q
    rw [hp] at h
    injection h with h2
    injection h2 with ha hb
    subst hb
    by_cases hy : y % XLogSegSize = 0
    · simp [hy]
    · simp only [ne_eq, hy, not_false_eq_true, if_true]
      have hS : XLogSegSize = 16777216 := rfl
      rw [hS] at hy ⊢
      omega

/-- Every position string the scanner hands back parses to a pair whose
low half is a segment-ordinal multiple of the segment size. -/
theorem filename_to_logpos_aligned (name : List Char) (add : Bool) :
    ∃ lg n, parseXlogPos (filename_to_logpos name add) =
      some (lg, n * XLogSegSize) := by
  unfold filename_to_logpos
  rw [parseXlogPos_round]
  have hU : UINT32_MOD = 256 * XLogSegSize := rfl
  set q := (if add = true then
      NextLogSeg (XLogFromFileName name).2.1 (XLogFromFileName name).2.2
    else ((XLogFromFileName name).2.1, (XLogFromFileName name).2.2)) with hq
  refine ⟨q.1 % UINT32_MOD % UINT32_MOD, q.2 % 256, ?_⟩
  have h1 : q.2 * XLogSegSize % UINT32_MOD = q.2 % 256 * XLogSegSize := by
    rw [hU]
    exact Nat.mul_mod_mul_right XLogSegSize q.2 256
  have h2 : q.2 % 256 * XLogSegSize < UINT32_MOD := by
    have hS : XLogSegSize = 16777216 := rfl
    have hU2 : UINT32_MOD = 4294967296 := rfl
    rw [hS, hU2]
    omega
  rw [h1, Nat.mod_eq_of_lt h2]

/-- C5: the position passed to START_REPLICATION is divisible by the
segment size in every branch (partial segment, latest archived segment,
or server-provided position): start_streaming rounds the low half down,
the upper half contributes whole multiples of S, and locally derived
scanner positions are segment-ordinal multiples of S. -/
theorem C5_resume_alignment :
    (∀ inprog archive serverPos l off,
      resumeCommand inprog archive serverPos = .ok (l, off) →
      off % XLogSegSize = 0 ∧
      (l * UINT32_MOD + off) % XLogSegSize = 0) ∧
    (∀ inprog archive pos g,
      get_streaming_start_point inprog archive = .ok (some pos, g) →
      ∃ lg n, parseXlogPos pos = some (lg, n * XLogSegSize)) := by
  have hstep : ∀ (s : List Char) (l off : Nat), start_streaming s = .ok (l, off) →
      off % XLogSegSize = 0 ∧ (l * UINT32_MOD + off) % XLogSegSize = 0 := by
    intro s l off h
    have h1 := start_streaming_aligned s l off h
    refine ⟨h1, ?_⟩
    have hU : UINT32_MOD = 256 * XLogSegSize := rfl
    rw [hU, show l * (256 * XLogSegSize) = XLogSegSize * (l * 256) by ring,
      Nat.mul_add_mod]
    exact h1
  constructor
  · intro inprog archive serverPos l off h
    unfold resumeCommand at h
    split at h
    · exact Except.noConfusion h
    · exact hstep _ l off h
    · exact hstep _ l off h
  · intro inprog archive pos g h
    unfold get_streaming_start_point at h
    split at h
    · exact Except.noConfusion h
    · split at h
      · split at h
        · injection h with h2
          injection h2 with ha hb
          injection ha with ha2
          subst ha2
          exact filename_to_logpos_aligned _ false
        · exact Except.noConfusion h
      · split at h
        · split at h
          · exact Except.noConfusion h
          · exact Except.noConfusion h
        · exact Except.noConfusion h
    · split at h
      · injection h with h2
        injection h2 with ha hb
        injection ha with ha2
        subst ha2
        exact filename_to_logpos_aligned _ true
      · injection h with h2
        injection h2 with ha hb
        exact Option.noConfusion ha

/-- C5 witness: the alignment theorem at a concrete empty archive and the
server position 0/2000123, rounded to 0/2000000. -/
theorem C5_resume_alignment_witness :
    resumeCommand [] [] ['0', '/', '2', '0', '0', '0', '1', '2', '3'] =
      .ok (0, 33554432) ∧ (33554432 : Nat) % XLogSegSize = 0 :=
  ⟨by rfl,
   (C5_resume_alignment.1 [] [] ['0', '/', '2', '0', '0', '0', '1', '2', '3']
     0 33554432 (by rfl)).1⟩

/-- Character order agrees with hex digit value order on ISHEX characters. -/
theorem ISHEX_val_lt_iff (a b : Char) (ha : ISHEX a = true)
    (hb : ISHEX b = true) :
    (a.toNat < b.toNat ↔ hexDigitVal a < hexDigitVal b) := by
  simp only [ISHEX, decide_eq_true_eq] at ha hb
  unfold hexDigitVal
  split_ifs <;> omega

/-- Positional dominance: a strictly smaller leading digit loses whatever
the tails are. -/
theorem lexval_lt_of_head (dx dy X Y P : Nat) (hY : Y < P) (h : dy < dx) :
    dy * P + Y < dx * P + X := by
  calc dy * P + Y < dy * P + P := by omega
    _ = (dy + 1) * P := by ring
    _ ≤ dx * P := Nat.mul_le_mul_right P (by omega)
    _ ≤ dx * P + X := Nat.le_add_right _ _

/-- strcmp order on same-length all-hex names is hex value order. -/
theorem strcmpGt_iff_val : ∀ (a b : List Char), a.length = b.length →
    a.all ISHEX = true → b.all ISHEX = true →
    (strcmpGt a b = true ↔ hexValOf b < hexValOf a) := by
  intro a
  induction a with
  | nil =>
    intro b hlen ha hb
    have : b = [] := List.length_eq_zero.mp hlen.symm
    subst this
    simp [strcmpGt, hexValOf]
  | cons x xs ih =>
    intro b hlen ha hb
    cases b with
    | nil => simp at hlen
    | cons y ys =>
      simp only [List.length_cons, Nat.succ.injEq] at hlen
      simp only [List.all_cons, Bool.and_eq_true] at ha hb
      obtain ⟨hx, hxs⟩ := ha
      obtain ⟨hy, hys⟩ := hb
      by_cases hxy : x = y
      · subst hxy
        have hred : strcmpGt (x :: xs) (x :: ys) = strcmpGt xs ys := by
          simp [strcmpGt]
        rw [hred, ih ys hlen hxs hys]
        simp only [hexValOf, hlen]
        omega
      · simp only [strcmpGt, if_neg hxy, decide_eq_true_eq, hexValOf]
        rw [ISHEX_val_lt_iff y x hy hx]
        constructor
        · intro hlt
          have h1 : hexValOf ys < 16 ^ xs.length := by
            rw [hlen]
            exact hexValOf_lt ys
          calc hexDigitVal y * 16 ^ ys.length + hexValOf ys
              = hexDigitVal y * 16 ^ xs.length + hexValOf ys := by rw [hlen]
            _ < hexDigitVal x * 16 ^ xs.length + hexValOf xs :=
              lexval_lt_of_head _ _ _ _ _ h1 hlt
        · intro hlt
          by_contra hn
          push_neg at hn
          rcases Nat.lt_or_ge (hexDigitVal x) (hexDigitVal y) with hc | hc
          · have h1 : hexValOf xs < 16 ^ ys.length := by
              rw [← hlen]
              exact hexValOf_lt xs
            have : hexDigitVal x * 16 ^ xs.length + hexValOf xs <
                hexDigitVal y * 16 ^ ys.length + hexValOf ys := by
              calc hexDigitVal x * 16 ^ xs.length + hexValOf xs
                  = hexDigitVal x * 16 ^ ys.length + hexValOf xs := by rw [hlen]
                _ < hexDigitVal y * 16 ^ ys.length + hexValOf ys :=
                  lexval_lt_of_head _ _ _ _ _ h1 hc
            omega
          · have hveq : hexDigitVal x = hexDigitVal y := by omega
            have htn : ¬ x.toNat < y.toNat := by
              rw [ISHEX_val_lt_iff x y hx hy]
              omega
            have htn2 : ¬ y.toNat < x.toNat := by
              rw [ISHEX_val_lt_iff y x hy hx]
              omega
            have : x.toNat = y.toNat := by omega
            exact hxy (Char.eq_of_val_eq (UInt32.ext this))

/-- strcmp order never strictly exceeds the maximum (contrapositive form):
a name whose value is at most b's does not compare above b. -/
theorem strcmpGt_eq_false_of_le (a b : List Char) (hlen : a.length = b.length)
    (ha : a.all ISHEX = true) (hb : b.all ISHEX = true)
    (h : hexValOf a ≤ hexValOf b) : strcmpGt a b = false := by
  cases hc : strcmpGt a b with
  | false => rfl
  | true =>
    rw [strcmpGt_iff_val a b hlen ha hb] at hc
    omega

/-- validSegName unpacked. -/
theorem validSegName_iff (l : List Char) :
    validSegName l = true ↔ (l.length = 24 ∧ l.all ISHEX = true) := by
  simp [validSegName]

/-- Candidate names of a cons listing. -/
theorem archCands_cons (e : DirEntry) (rest : List DirEntry) :
    archCands (e :: rest) =
      if validSegName e.name then e.name :: archCands rest
      else archCands rest := by
  simp only [archCands, List.map_cons, List.filter]
  cases hv : validSegName e.name <;> simp [hv]

/-- A held accumulator always yields a result. -/
theorem archiveBest_some_acc : ∀ (ents : List DirEntry) (z : List Char),
    ∃ b, archiveBest ents (some z) = some b := by
  intro ents
  induction ents with
  | nil => exact fun z => ⟨z, rfl⟩
  | cons e rest ih =>
    intro z
    unfold archiveBest
    split
    · exact ih z
    · split
      · exact ih z
      · split
        · exact ih z
        · split
          · exact ih _
          · split
            · exact ih _
            · exact ih z

/-- Invalid head names contribute no candidate. -/
theorem archCands_cons_invalid (e : DirEntry) (rest : List DirEntry)
    (hv : validSegName e.name = false) :
    archCands (e :: rest) = archCands rest := by
  rw [archCands_cons, hv]
  simp

/-- Characterization of the archive scan: a returned name is a candidate
(or the starting accumulator), is a valid segment name, and its hex value
dominates every candidate and the accumulator. -/
theorem archiveBest_spec : ∀ (ents : List DirEntry) (acc : Option (List Char))
    (b : List Char),
    (∀ a0, acc = some a0 → validSegName a0 = true) →
    archiveBest ents acc = some b →
    (b ∈ archCands ents ∨ acc = some b) ∧ validSegName b = true ∧
    (∀ n ∈ archCands ents, hexValOf n ≤ hexValOf b) ∧
    (∀ a0, acc = some a0 → hexValOf a0 ≤ hexValOf b) := by
  intro ents
  induction ents with
  | nil =>
    intro acc b hacc h
    simp only [archiveBest] at h
    refine ⟨Or.inr h, hacc b h, ?_, ?_⟩
    · intro n hn
      simp [archCands] at hn
    · intro a0 ha0
      rw [h] at ha0
      injection ha0 with h2
      subst h2
      exact le_refl _
  | cons e rest ih =>
    intro acc b hacc h
    unfold archiveBest at h
    by_cases hd : (e.name = dotName ∨ e.name = dotDotName)
    · rw [if_pos hd] at h
      have hv : validSegName e.name = false := by
        rcases hd with hd | hd <;> rw [hd] <;> decide
      have hcands := archCands_cons_invalid e rest hv
      obtain ⟨h1, h2, h3, h4⟩ := ih acc b hacc h
      refine ⟨?_, h2, ?_, h4⟩
      · rw [hcands]
        exact h1
      · rw [hcands]
        exact h3
    · rw [if_neg hd] at h
      by_cases hl : e.name.length ≠ 24
      · rw [if_pos hl] at h
        have hv : validSegName e.name = false := by
          simp [validSegName, hl]
        have hcands := archCands_cons_invalid e rest hv
        obtain ⟨h1, h2, h3, h4⟩ := ih acc b hacc h
        refine ⟨?_, h2, ?_, h4⟩
        · rw [hcands]
          exact h1
        · rw [hcands]
          exact h3
      · rw [if_neg hl] at h
        by_cases hh : e.name.all ISHEX = true
        · rw [if_neg (not_not_intro hh)] at h
          have hlen_e : e.name.length = 24 := by omega
          have hv : validSegName e.name = true := by
            simp [validSegName, hlen_e, hh]
          have hcands : archCands (e :: rest) = e.name :: archCands rest := by
            rw [archCands_cons, hv]
            simp
          cases hacc2 : acc with
          | none =>
            rw [hacc2] at h
            change archiveBest rest (some e.name) = some b at h
            obtain ⟨h1, h2, h3, h4⟩ := ih (some e.name) b
              (by
                intro a0 ha0
                injection ha0 with hh2
                subst hh2
                exact hv) h
            have hb_head : hexValOf e.name ≤ hexValOf b := h4 e.name rfl
            refine ⟨?_, h2, ?_, ?_⟩
            · rcases h1 with h1 | h1
              · exact Or.inl (by rw [hcands]; exact List.mem_cons_of_mem _ h1)
              · injection h1 with hh2
                exact Or.inl (by rw [hcands, hh2]; exact List.mem_cons_self _ _)
            · intro n hn
              rw [hcands] at hn
              rcases List.mem_cons.mp hn with rfl | hn
              · exact hb_head
              · exact h3 n hn
            · intro a0 ha0
              exact Option.noConfusion ha0
          | some a0 =>
            rw [hacc2] at h
            change (if strcmpGt e.name a0 then archiveBest rest (some e.name)
              else archiveBest rest (some a0)) = some b at h
            have hva0 : validSegName a0 = true := hacc a0 hacc2
            have hlen_a0 : a0.length = 24 := ((validSegName_iff a0).mp hva0).1
            have hhex_a0 : a0.all ISHEX = true := ((validSegName_iff a0).mp hva0).2
            by_cases hcmp : strcmpGt e.name a0 = true
            · rw [if_pos hcmp] at h
              have hgt : hexValOf a0 < hexValOf e.name :=
                (strcmpGt_iff_val e.name a0 (by rw [hlen_e, hlen_a0]) hh
                  hhex_a0).mp hcmp
              obtain ⟨h1, h2, h3, h4⟩ := ih (some e.name) b
                (by
                  intro a1 ha1
                  injection ha1 with hh2
                  subst hh2
                  exact hv) h
              have hb_head : hexValOf e.name ≤ hexValOf b := h4 e.name rfl
              refine ⟨?_, h2, ?_, ?_⟩
              · rcases h1 with h1 | h1
                · exact Or.inl (by rw [hcands]; exact List.mem_cons_of_mem _ h1)
                · injection h1 with hh2
                  exact Or.inl
                    (by rw [hcands, hh2]; exact List.mem_cons_self _ _)
              · intro n hn
                rw [hcands] at hn
                rcases List.mem_cons.mp hn with rfl | hn
                · exact hb_head
                · exact h3 n hn
              · intro a1 ha1
                injection ha1 with hh2
                subst hh2
                omega
            · rw [if_neg hcmp] at h
              have hle : hexValOf e.name ≤ hexValOf a0 := by
                by_contra hc
                push_neg at hc
                exact hcmp ((strcmpGt_iff_val e.name a0
                  (by rw [hlen_e, hlen_a0]) hh hhex_a0).mpr hc)
              obtain ⟨h1, h2, h3, h4⟩ := ih (some a0) b
                (by
                  intro a1 ha1
                  injection ha1 with hh2
                  subst hh2
                  exact hva0) h
              have hb_a0 : hexValOf a0 ≤ hexValOf b := h4 a0 rfl
              refine ⟨?_, h2, ?_, ?_⟩
              · rcases h1 with h1 | h1
                · exact Or.inl (by rw [hcands]; exact List.mem_cons_of_mem _ h1)
                · injection h1 with hh2
                  subst hh2
                  exact Or.inr rfl
              · intro n hn
                rw [hcands] at hn
                rcases List.mem_cons.mp hn with rfl | hn
                · omega
                · exact h3 n hn
              · intro a1 ha1
                injection ha1 with hh2
                subst hh2
                exact hb_a0
        · rw [if_pos hh] at h
          have hax : e.name.all ISHEX = false := by
            cases hb2 : e.name.all ISHEX
            · rfl
            · exact absurd hb2 hh
          have hv : validSegName e.name = false := by
            simp [validSegName, hax]
          have hcands := archCands_cons_invalid e rest hv
          obtain ⟨h1, h2, h3, h4⟩ := ih acc b hacc h
          refine ⟨?_, h2, ?_, h4⟩
          · rw [hcands]
            exact h1
          · rw [hcands]
            exact h3

/-- A nonempty candidate set always produces a pick. -/
theorem archiveBest_total : ∀ (ents : List DirEntry),
    archCands ents ≠ [] → ∃ b, archiveBest ents none = some b := by
  intro ents
  induction ents with
  | nil => intro h; exact absurd rfl h
  | cons e rest ih =>
    intro h
    unfold archiveBest
    by_cases hd : (e.name = dotName ∨ e.name = dotDotName)
    · rw [if_pos hd]
      have hv : validSegName e.name = false := by
        rcases hd with hd | hd <;> rw [hd] <;> decide
      rw [archCands_cons_invalid e rest hv] at h
      exact ih h
    · rw [if_neg hd]
      by_cases hl : e.name.length ≠ 24
      · rw [if_pos hl]
        have hv : validSegName e.name = false := by simp [validSegName, hl]
        rw [archCands_cons_invalid e rest hv] at h
        exact ih h
      · rw [if_neg hl]
        by_cases hh : e.name.all ISHEX = true
        · rw [if_neg (not_not_intro hh)]
          exact archiveBest_some_acc rest e.name
        · rw [if_pos hh]
          have hax : e.name.all ISHEX = false := by
            cases hb2 : e.name.all ISHEX
            · rfl
            · exact absurd hb2 hh
          have hv : validSegName e.name = false := by simp [validSegName, hax]
          rw [archCands_cons_invalid e rest hv] at h
          exact ih h

/-- C6 counterexample: with the inprogress directory empty, the archive
scan considers a non-regular 24-hex entry (the code never stats archive
entries), so a directory named ...002 beats the largest regular file
...001, contradicting the claim's restriction to regular files. -/
theorem C6_counterexample :
    get_streaming_start_point [] [⟨nameA, true, 16777216⟩, ⟨nameB, false, 0⟩] =
      .ok (some (filename_to_logpos nameB true), none) ∧
    archiveBest [⟨nameA, true, 16777216⟩, ⟨nameB, false, 0⟩] none =
      some nameB ∧
    (⟨nameB, false, 0⟩ : DirEntry).isReg = false ∧
    nameB ≠ nameA :=
  ⟨by rfl, by rfl, rfl, by decide⟩

/-- C6 amended: when the inprogress directory has no real entry and the
archive listing has at least one 24-uppercase-hex name (regular or not:
the code never checks file type here), the scanner picks the
lexicographically largest such name, which is also the hex-numerically
largest, and resumes at the start of the segment after it; byte-wise
strcmp order on valid names coincides with hex value order. -/
theorem C6_archive_scan :
    (∀ inprog archive b, realEntries inprog = [] →
      archiveBest archive none = some b →
      get_streaming_start_point inprog archive =
        .ok (some (filename_to_logpos b true), none) ∧
      validSegName b = true ∧ b ∈ archCands archive ∧
      (∀ n ∈ archCands archive, hexValOf n ≤ hexValOf b) ∧
      (∀ n ∈ archCands archive, strcmpGt n b = false)) ∧
    (∀ archive, archCands archive ≠ [] →
      ∃ b, archiveBest archive none = some b) ∧
    (∀ a b, validSegName a = true → validSegName b = true →
      (strcmpGt a b = true ↔ hexValOf b < hexValOf a)) := by
  refine ⟨?_, archiveBest_total, ?_⟩
  · intro inprog archive b h1 h2
    obtain ⟨hmem, hvb, hdom, -⟩ :=
      archiveBest_spec archive none b (fun a0 ha0 => Option.noConfusion ha0) h2
    have hmem2 : b ∈ archCands archive := by
      rcases hmem with hmem | hmem
      · exact hmem
      · exact Option.noConfusion hmem
    refine ⟨?_, hvb, hmem2, hdom, ?_⟩
    · unfold get_streaming_start_point
      rw [scanInprogress_empty inprog h1, h2]
    · intro n hn
      have hvn : validSegName n = true := by
        simp only [archCands, List.mem_filter] at hn
        exact hn.2
      exact strcmpGt_eq_false_of_le n b
        (by rw [((validSegName_iff n).mp hvn).1, ((validSegName_iff b).mp hvb).1])
        ((validSegName_iff n).mp hvn).2 ((validSegName_iff b).mp hvb).2
        (hdom n hn)
  · intro a b hva hvb
    exact strcmpGt_iff_val a b
      (by rw [((validSegName_iff a).mp hva).1, ((validSegName_iff b).mp hvb).1])
      ((validSegName_iff a).mp hva).2 ((validSegName_iff b).mp hvb).2

/-- C6 witness: the amended archive-scan theorem at a concrete archive of
two regular segments, resuming after the larger one. -/
theorem C6_archive_scan_witness :
    get_streaming_start_point [] [⟨nameA, true, 16777216⟩, ⟨nameB, true, 16777216⟩] =
      .ok (some (filename_to_logpos nameB true), none) ∧
    nameB ∈ archCands [⟨nameA, true, 16777216⟩, ⟨nameB, true, 16777216⟩] :=
  ⟨(C6_archive_scan.1 [] [⟨nameA, true, 16777216⟩, ⟨nameB, true, 16777216⟩]
      nameB rfl (by rfl)).1,
   (C6_archive_scan.1 [] [⟨nameA, true, 16777216⟩, ⟨nameB, true, 16777216⟩]
      nameB rfl (by rfl)).2.2.1⟩

/-- An entry reported by the inprogress scan came from the listing or was
the accumulator. -/
theorem scanInprogress_found_sub : ∀ (ents : List DirEntry)
    (acc : Option DirEntry) (e : DirEntry),
    scanInprogressDir ents acc = .ok (some e) → e ∈ ents ∨ acc = some e := by
  intro ents
  induction ents with
  | nil =>
    intro acc e h
    injection h with h2
    exact Or.inr h2
  | cons a rest ih =>
    intro acc e h
    unfold scanInprogressDir at h
    split at h
    · rcases ih acc e h with hm | hm
      · exact Or.inl (List.mem_cons_of_mem _ hm)
      · exact Or.inr hm
    · split at h
      · exact Except.noConfusion h
      · split at h
        · rcases ih (some a) e h with hm | hm
          · exact Or.inl (List.mem_cons_of_mem _ hm)
          · injection hm with hm2
            subst hm2
            exact Or.inl (List.mem_cons_self _ _)
        · exact Except.noConfusion h

/-- Bytes 1 through 8 of the full-segment sample frame are zero. -/
theorem bufSeg0Full_getD (i : Nat) (h1 : 1 ≤ i) (h2 : i ≤ 8) :
    bufSeg0Full.getD i 0 = 0 := by
  obtain ⟨j, rfl⟩ : ∃ j, i = j + 1 := ⟨i - 1, by omega⟩
  unfold bufSeg0Full
  rw [List.getD_cons_succ, List.getD_eq_getElem?_getD, List.getElem?_replicate]
  have hj : j < 24 + XLogSegSize := by
    have hS : XLogSegSize = 16777216 := rfl
    omega
  simp [hj]

/-- The full-segment sample frame starts at position 0/0. -/
theorem decode_bufSeg0Full : decodeRecPtr bufSeg0Full = ⟨0, 0⟩ := by
  unfold decodeRecPtr le32
  rw [bufSeg0Full_getD 1 (by omega) (by omega),
      bufSeg0Full_getD 2 (by omega) (by omega),
      bufSeg0Full_getD 3 (by omega) (by omega),
      bufSeg0Full_getD 4 (by omega) (by omega),
      bufSeg0Full_getD 5 (by omega) (by omega),
      bufSeg0Full_getD 6 (by omega) (by omega),
      bufSeg0Full_getD 7 (by omega) (by omega),
      bufSeg0Full_getD 8 (by omega) (by omega)]

/-- The payload of the full-segment sample frame is one whole segment. -/
theorem drop25_bufSeg0Full :
    bufSeg0Full.drop 25 = List.replicate XLogSegSize 0 := by
  unfold bufSeg0Full
  rw [show (25 : Nat) = 24 + 1 from rfl, List.drop_succ_cons,
    List.drop_replicate]
  have : 24 + XLogSegSize - 24 = XLogSegSize := by omega
  rw [this]

/-- Length of the full-segment sample frame. -/
theorem length_bufSeg0Full : bufSeg0Full.length = 25 + XLogSegSize := by
  unfold bufSeg0Full
  rw [List.length_cons, List.length_replicate]
  omega

/-- A frame at position 0/0 arriving with no file open creates segment
TLI 0 0 and writes the payload; symbolic form usable at any payload. -/
theorem processFrame_open_fresh (tli : Nat) (buf pl : List Nat)
    (hc1 : ¬ (buf.length < STREAMING_HEADER_SIZE + 1))
    (hc2 : buf.getD 0 0 = wTag)
    (hc3 : xlogoffOf buf = 0)
    (hdec : decodeRecPtr buf = ⟨0, 0⟩)
    (hdrop : buf.drop STREAMING_HEADER_SIZE = pl) :
    processFrame tli ⟨none, none⟩ buf =
      .ok (⟨some ⟨XLogFileName tli 0 0, pl.length, pl⟩, none⟩,
           [.openSegment (XLogFileName tli 0 0),
            .writeBytes (XLogFileName tli 0 0) pl]) := by
  unfold processFrame
  rw [if_neg hc1, if_neg (fun hne => hne hc2)]
  show (if xlogoffOf buf ≠ 0 then Except.error ErrKind.NotAtBoundary
    else Except.ok (writeTail (open_walfile tli (decodeRecPtr buf))
      none
      [FsAction.openSegment (open_walfile tli (decodeRecPtr buf)).name]
      (buf.drop STREAMING_HEADER_SIZE))) = _
  rw [if_neg (fun hne => hne hc3), hdrop, hdec]
  unfold writeTail open_walfile
  simp only [List.nil_append, Nat.zero_add, Nat.zero_div,
    List.singleton_append]

/-- Processing the full-segment sample frame from the fresh state opens
segment 000000010000000000000000 and fills it completely without any
rename. -/
theorem processFrame_bufSeg0Full :
    processFrame 1 ⟨none, none⟩ bufSeg0Full =
      .ok (⟨some ⟨seg100Name, XLogSegSize, List.replicate XLogSegSize 0⟩, none⟩,
           [.openSegment seg100Name,
            .writeBytes seg100Name (List.replicate XLogSegSize 0)]) := by
  have hc1 : ¬ (bufSeg0Full.length < STREAMING_HEADER_SIZE + 1) := by
    rw [length_bufSeg0Full]
    have hS : XLogSegSize = 16777216 := rfl
    simp only [STREAMING_HEADER_SIZE]
    omega
  have hc2 : bufSeg0Full.getD 0 0 = wTag := by
    unfold bufSeg0Full
    rw [List.getD_cons_zero]
  have hc3 : xlogoffOf bufSeg0Full = 0 := by
    unfold xlogoffOf
    rw [decode_bufSeg0Full]
    simp
  have h := processFrame_open_fresh 1 bufSeg0Full
    (List.replicate XLogSegSize 0) hc1 hc2 hc3 decode_bufSeg0Full
    drop25_bufSeg0Full
  rw [h, List.length_replicate]
  rfl

/-- A single-frame run is just that frame's step with an empty tail. -/
theorem runFrames_single (tli : Nat) (s s2 : LoopState) (buf : List Nat)
    (acts : List FsAction)
    (h : processFrame tli s buf = .ok (s2, acts)) :
    runFrames tli s [buf] = .ok (s2, acts ++ []) := by
  unfold runFrames
  rw [h]
  rfl

/-- C8 counterexample: a run that receives exactly one full segment and
then ends cleanly leaves a 24-hex file of size exactly S in inprogress
(no rename happened); the next startup turns it into a .save of size S,
so the recorded .save size is not strictly below S. -/
theorem C8_counterexample :
    runFrames 1 ⟨none, none⟩ [bufSeg0Full] =
      .ok (⟨some ⟨seg100Name, XLogSegSize, List.replicate XLogSegSize 0⟩, none⟩,
           [.openSegment seg100Name,
            .writeBytes seg100Name (List.replicate XLogSegSize 0)]) ∧
    FsAction.renameToArchive seg100Name ∉
      ([.openSegment seg100Name,
        .writeBytes seg100Name (List.replicate XLogSegSize 0)] :
        List FsAction) ∧
    loopStep 1
      ⟨some ⟨seg100Name, XLogSegSize, List.replicate XLogSegSize 0⟩, none⟩
      CopyMsg.copyDone =
      .finished
        ⟨some ⟨seg100Name, XLogSegSize, List.replicate XLogSegSize 0⟩, none⟩ ∧
    get_streaming_start_point [⟨seg100Name, true, XLogSegSize⟩] [] =
      .ok (some (filename_to_logpos seg100Name false),
           some ⟨seg100Name ++ saveSuffix, XLogSegSize⟩) ∧
    ¬ ((XLogSegSize : Nat) < XLogSegSize) := by
  refine ⟨?_, by simp, rfl, by rfl, by simp⟩
  rw [runFrames_single 1 ⟨none, none⟩ _ bufSeg0Full _ processFrame_bufSeg0Full]
  rw [List.append_nil]

/-- C8 amended: at most one .save can exist (the scanner refuses to start
whenever a .save entry is present in inprogress, and it creates at most
one); the .save it creates has the size of the partial file left by the
prior run, which is at most S when every inprogress file is, but may
equal S exactly. -/
theorem C8_save_constraints :
    (∀ inprog archive pos sv,
      (∀ e ∈ inprog, e.size ≤ XLogSegSize) →
      get_streaming_start_point inprog archive = .ok (pos, some sv) →
      sv.size ≤ XLogSegSize) ∧
    (∀ inprog archive e, e ∈ inprog → nonDot e = true →
      e.name.length = 29 → e.name.drop 24 = saveSuffix →
      ∃ err, get_streaming_start_point inprog archive = .error err) := by
  constructor
  · intro inprog archive pos sv hsize h
    unfold get_streaming_start_point at h
    split at h
    · exact Except.noConfusion h
    next e0 hscan =>
      split at h
      · split at h
        · injection h with h2
          injection h2 with ha hb
          injection hb with hb2
          subst hb2
          have hmem : e0 ∈ inprog := by
            rcases scanInprogress_found_sub inprog none e0 hscan with hm | hm
            · exact hm
            · exact Option.noConfusion hm
          exact hsize e0 hmem
        · exact Except.noConfusion h
      · split at h
        · split at h
          · exact Except.noConfusion h
          · exact Except.noConfusion h
        · exact Except.noConfusion h
    next hscan =>
      split at h
      · injection h with h2
        injection h2 with ha hb
        exact Option.noConfusion hb
      · injection h with h2
        injection h2 with ha hb
        exact Option.noConfusion hb
  · intro inprog archive e hmem hnd h29 hsuf
    have hm2 : e ∈ realEntries inprog := List.mem_filter.mpr ⟨hmem, hnd⟩
    cases hre : realEntries inprog with
    | nil =>
      rw [hre] at hm2
      exact absurd hm2 (List.not_mem_nil e)
    | cons a rest =>
      cases rest with
      | nil =>
        rw [hre] at hm2
        obtain rfl : e = a := by simpa using hm2
        by_cases hr : e.isReg = true
        · have hscan := scanInprogress_single inprog e hre
          rw [hr] at hscan
          simp only [if_true] at hscan
          refine ⟨.StaleSaveFile, ?_⟩
          have h24 : ¬ e.name.length = 24 := by omega
          simp [get_streaming_start_point, hscan, h24, h29, hsuf]
        · have hscan := scanInprogress_single inprog e hre
          have hr2 : e.isReg = false := by
            cases hb2 : e.isReg
            · rfl
            · exact absurd hb2 hr
          rw [hr2] at hscan
          simp only [Bool.false_eq_true, if_false] at hscan
          exact ⟨.NonFileEntry, by simp [get_streaming_start_point, hscan]⟩
      | cons b rest2 =>
        have hlen2 : 2 ≤ (realEntries inprog).length := by
          rw [hre, List.length_cons, List.length_cons]
          omega
        obtain ⟨err, herr, -⟩ := scanInprogress_many inprog hlen2
        exact ⟨err, by simp [get_streaming_start_point, herr]⟩

/-- C8 witness: the amended constraints at a concrete half-written
segment of 100 bytes. -/
theorem C8_save_constraints_witness :
    get_streaming_start_point [⟨seg9Name, true, 100⟩] [] =
      .ok (some (filename_to_logpos seg9Name false),
           some ⟨seg9Name ++ saveSuffix, 100⟩) ∧
    (100 : Nat) ≤ XLogSegSize :=
  ⟨by rfl,
   C8_save_constraints.1 [⟨seg9Name, true, 100⟩] []
     (some (filename_to_logpos seg9Name false)) ⟨seg9Name ++ saveSuffix, 100⟩
     (by decide) (by rfl)⟩

end PgStreamRecv
